import Mathlib

/-!
# Verification of the Black Box ray-tracing engine

Shallow embedding of the game engine of the `blackbox` repository
(`src/game/atom.py`, `src/game/gameboard.py`, `src/game/ray.py`,
`src/game/player.py`) together with proofs settling the frozen claims
about its specification.

Conventions of the embedding:
* Board coordinates are `Int` (they range over `[-1, size]`).
* Python exceptions are modelled with `Except PyErr` / explicit error
  outcomes.  A `ValueError` raised and a `TypeError` raised are kept
  distinct, as is the generic `Exception` raised by the loop guard.
* The ray's `path` list is stored most-recent-first (`rpath`); the
  Python `path` attribute is `rpath.reverse`.  `visited` is the Python
  set of visited positions, kept as a list used only through membership.
* The unbounded `while True` loop of `Ray.trace` is executed with fuel
  `size * size + 4`; an `outOfFuel` outcome marks fuel exhaustion (it is
  proved unreachable for the inputs the claims quantify over).
-/

/-- Python error values that the engine can raise. -/
inductive PyErr where
  | valueError
  | typeError
  | loopException
  | nonTermination
deriving DecidableEq

/-- The Python `bool` attribute `is_double_detour` also gets assigned
`None` by `_handle_multiple_reflections`; three-valued model. -/
inductive TriState where
  | tt
  | ff
  | noneV
deriving DecidableEq

/-- The Python attribute `exit_point` is `None`, a coordinate pair, or —
in `_handle_multiple_reflections` — the literal `True`. -/
inductive ExitVal where
  | noneV
  | pos (p : Int × Int)
  | trueVal
deriving DecidableEq

/-- An atom: `Atom.__init__` stores the two coordinates (the `is_revealed`
flag plays no part in ray tracing and is omitted). -/
structure Atom where
  x : Int
  y : Int
deriving DecidableEq

/-- Embeds `Atom.is_hit(x, y)`: raises `ValueError` on negative coordinates,
otherwise reports exact coincidence. -/
def Atom.isHit (a : Atom) (x y : Int) : Except PyErr Bool :=
  if x < 0 ∨ y < 0 then .error .valueError
  else .ok (a.x = x ∧ a.y = y : Bool)

/-- Embeds `Atom.is_adjacent(x, y)`: raises `ValueError` on negative coordinates,
otherwise reports diagonal adjacency (`|dx| = 1 and |dy| = 1`).  Note that
it returns a bare `bool` — no corner number. -/
def Atom.isAdjacent (a : Atom) (x y : Int) : Except PyErr Bool :=
  if x < 0 ∨ y < 0 then .error .valueError
  else .ok ((a.x - x).natAbs = 1 ∧ (a.y - y).natAbs = 1 : Bool)

/-- The binding `is_adjacent, corner = self.check_reflection(atom)` in
`Ray.trace`: `check_reflection` returns `atom.is_adjacent(x, y)`, a bare
`bool`, so when `is_adjacent` itself does not raise, the tuple unpacking
raises `TypeError` (a `bool` is not iterable). -/
def checkReflectionUnpack (a : Atom) (x y : Int) : Except PyErr (Bool × Nat) :=
  match a.isAdjacent x y with
  | .error e => .error e
  | .ok _ => .error .typeError

/-- The first loop of the `try` block in `Ray.trace`:
`for atom in gameboard.atoms: if self.check_hit(atom): return`. -/
def findHit (atoms : List Atom) (x y : Int) : Except PyErr Bool :=
  match atoms with
  | [] => .ok false
  | a :: rest =>
    match a.isHit x y with
    | .error e => .error e
    | .ok true => .ok true
    | .ok false => findHit rest x y

/-- The second loop of the `try` block in `Ray.trace`, building the
`reflections` list.  It throws at the first atom because of
`checkReflectionUnpack`; it returns `[]` exactly when there are no atoms. -/
def buildReflections (atoms : List Atom) (x y : Int) :
    Except PyErr (List (Atom × Nat)) :=
  match atoms with
  | [] => .ok []
  | a :: rest =>
    match checkReflectionUnpack a x y with
    | .error e => .error e
    | .ok (adj, corner) =>
      match buildReflections rest x y with
      | .error e => .error e
      | .ok tail => .ok (if adj then (a, corner) :: tail else tail)

/-- The game board: `GameBoard` keeps `size` and the list `atoms`; the
`grid` field duplicates the atom positions and plays no part in tracing. -/
structure Board where
  size : Nat
  atoms : List Atom
deriving DecidableEq

/-- Per `GameBoard.__init__`: the grid size determined by the difficulty. -/
inductive Difficulty where
  | easy
  | medium
  | hard
deriving DecidableEq

def sizeOfDifficulty : Difficulty → Nat
  | .easy => 6
  | .medium => 8
  | .hard => 10

/-- Embeds `GameBoard._validate_coordinates`: coordinates lie in `[-1, size]²`. -/
def Board.validCoords (b : Board) (x y : Int) : Bool :=
  -1 ≤ x ∧ x ≤ (b.size : Int) ∧ -1 ≤ y ∧ y ≤ (b.size : Int)

/-- Embeds `GameBoard.is_edge` after its coordinate validation succeeded. -/
def Board.isEdge (b : Board) (x y : Int) : Bool :=
  x = -1 ∨ x = (b.size : Int) ∨ y = -1 ∨ y = (b.size : Int)

/-- Mutable state of a `Ray` object. -/
structure RayState where
  direction : Int × Int
  /-- the Python `path`, most recent position first -/
  rpath : List (Int × Int)
  /-- the Python `visited_positions` set -/
  visited : List (Int × Int)
  entry : Int × Int
  exitPoint : ExitVal
  isDetoured : Bool
  isDoubleDetour : TriState
deriving DecidableEq

/-- The state installed by `Ray.__init__(start_x, start_y, direction)`
(after its argument checks pass). -/
def mkRay (x y : Int) (d : Int × Int) : RayState :=
  { direction := d
    rpath := [(x, y)]
    visited := [(x, y)]
    entry := (x, y)
    exitPoint := .noneV
    isDetoured := false
    isDoubleDetour := .ff }

/-- The Python `path[-1]` (the default is never used: `rpath` is nonempty
in every state the engine builds). -/
def RayState.cur (s : RayState) : Int × Int := s.rpath.headD (0, 0)

/-- The position `Ray.move` would advance to. -/
def RayState.nextPos (s : RayState) : Int × Int :=
  (s.cur.1 + s.direction.1, s.cur.2 + s.direction.2)

/-- The four directions accepted by `Ray.change_direction`. -/
def validDirs : List (Int × Int) := [(0, 1), (0, -1), (1, 0), (-1, 0)]

/-- Embeds `Ray.change_direction`: raises `ValueError` on a direction outside the
four unit vectors. -/
def changeDirection (s : RayState) (nd : Int × Int) : Except PyErr RayState :=
  if nd ∈ validDirs then .ok { s with direction := nd }
  else .error .valueError

/-- The `reflection_rules` dictionary of `Ray._handle_reflection`
(corner 1 top-left, 2 top-right, 3 bottom-left, 4 bottom-right). -/
def reflectionRules (corner : Nat) (d : Int × Int) : Option (Int × Int) :=
  if corner = 1 ∧ d = (1, 0) then some (0, -1)
  else if corner = 1 ∧ d = (0, 1) then some (-1, 0)
  else if corner = 2 ∧ d = (-1, 0) then some (0, -1)
  else if corner = 2 ∧ d = (0, 1) then some (1, 0)
  else if corner = 3 ∧ d = (1, 0) then some (0, 1)
  else if corner = 3 ∧ d = (0, -1) then some (-1, 0)
  else if corner = 4 ∧ d = (-1, 0) then some (0, 1)
  else if corner = 4 ∧ d = (0, -1) then some (1, 0)
  else none

/-- Embeds `Ray._handle_reflection`: look the pair up in `reflection_rules`
(a returned tuple is always truthy), otherwise reverse the direction. -/
def handleReflection (s : RayState) (corner : Nat) : Except PyErr RayState :=
  match reflectionRules corner s.direction with
  | some nd => changeDirection s nd
  | none => changeDirection s (-s.direction.1, -s.direction.2)

/-- Embeds `Ray._handle_multiple_reflections`: sets `is_double_detour = None` and
`exit_point = True`; the direction is left unchanged. -/
def handleMultipleReflections (s : RayState) : RayState :=
  { s with isDoubleDetour := .noneV, exitPoint := .trueVal }

/-- How one pass of the `while True` loop of `Ray.trace` ends. -/
inductive Outcome where
  /-- pass where `is_edge` was true: `exit_point` recorded, `break` -/
  | exited
  /-- pass where a `check_hit` succeeded: `return` -/
  | hitAtom
  /-- pass where `_handle_multiple_reflections` ran, then `return` -/
  | multiRefl
  /-- pass where an exception inside the `try` block was caught, then `return` -/
  | caughtError
  /-- pass raising the loop-guard `Exception` from `Ray.move`, uncaught -/
  | cycleError
  /-- pass raising the `ValueError` of `_validate_coordinates` inside `is_edge`, uncaught -/
  | boundsError
  /-- fuel exhaustion of the embedding (no Python counterpart) -/
  | outOfFuel
deriving DecidableEq

structure TraceResult where
  state : RayState
  outcome : Outcome
deriving DecidableEq

inductive StepRes where
  | done (r : TraceResult)
  | cont (s : RayState)
deriving DecidableEq

/-- One pass of the `while True` loop body of `Ray.trace`:
`move()`, the edge test, then the `try` block (hit detection, building
`reflections`, and the three-way branch on its length). -/
def traceStep (b : Board) (s : RayState) : StepRes :=
  let nxt := s.nextPos
  if nxt ∈ s.visited then
    .done ⟨s, .cycleError⟩
  else
    let s1 : RayState := { s with rpath := nxt :: s.rpath, visited := nxt :: s.visited }
    if ¬ b.validCoords nxt.1 nxt.2 then
      .done ⟨s1, .boundsError⟩
    else if b.isEdge nxt.1 nxt.2 then
      .done ⟨{ s1 with exitPoint := .pos nxt }, .exited⟩
    else
      match findHit b.atoms nxt.1 nxt.2 with
      | .error _ => .done ⟨s1, .caughtError⟩
      | .ok true => .done ⟨s1, .hitAtom⟩
      | .ok false =>
        match buildReflections b.atoms nxt.1 nxt.2 with
        | .error _ => .done ⟨s1, .caughtError⟩
        | .ok refl =>
          if refl.length > 1 then
            .done ⟨handleMultipleReflections s1, .multiRefl⟩
          else
            match refl with
            | [(_, corner)] =>
              match handleReflection s1 corner with
              | .ok s2 => .cont s2
              | .error _ => .done ⟨s1, .caughtError⟩
            | _ => .cont s1

/-- Fuelled iteration of the loop body. -/
def traceAux (b : Board) : Nat → RayState → TraceResult
  | 0, s => ⟨s, .outOfFuel⟩
  | fuel + 1, s =>
    match traceStep b s with
    | .done r => r
    | .cont s1 => traceAux b fuel s1

/-- Embeds `Ray.trace(gameboard)`.  The fuel `size * size + 4` is an upper bound
on the loop passes any run can make: every continuing pass records a new
interior position in `visited` and a repeat stops with `cycleError`. -/
def trace (b : Board) (s : RayState) : TraceResult :=
  traceAux b (b.size * b.size + 4) s

/-- The graph of the `while True` loop of `Ray.trace` as a relation:
`TraceRun b s r` says one run of the loop from state `s` ends in `r`.
Used to state determinism of the simulation (claim C9). -/
inductive TraceRun (b : Board) : RayState → TraceResult → Prop
  | done {s : RayState} {r : TraceResult} :
      traceStep b s = .done r → TraceRun b s r
  | cont {s s1 : RayState} {r : TraceResult} :
      traceStep b s = .cont s1 → TraceRun b s1 r → TraceRun b s r

/-- Side effects of `Player.fire_ray`, in the order the statements run. -/
inductive Ev where
  /-- event: `ray.trace(self.gameboard)` was invoked -/
  | traceCalled
  /-- event: `self.fired_rays.append(ray)` ran -/
  | rayAppended
  /-- event: `self.update_score(-1)` completed -/
  | scoreDeducted
deriving DecidableEq

/-- A player: score and the ordered list of fired rays (the name, the
guessed atoms, and the turn flag play no part in the claims). -/
structure Player where
  score : Int
  firedRays : List RayState
deriving DecidableEq

instance {ε α : Type} [DecidableEq ε] [DecidableEq α] :
    DecidableEq (Except ε α) := fun x y =>
  match x, y with
  | .error a, .error b =>
    if h : a = b then .isTrue (by rw [h])
    else .isFalse (fun hh => h (by injection hh))
  | .ok a, .ok b =>
    if h : a = b then .isTrue (by rw [h])
    else .isFalse (fun hh => h (by injection hh))
  | .error _, .ok _ => .isFalse (fun hh => Except.noConfusion hh)
  | .ok _, .error _ => .isFalse (fun hh => Except.noConfusion hh)

/-- Result of one `Player.fire_ray` call: the Python return value or the
exception, the ordered log of side effects that ran, and the player state
after the call (Python mutations persist even when an exception follows). -/
structure FireOut where
  result : Except PyErr (Player × RayState)
  events : List Ev
  playerAfter : Player
deriving DecidableEq

/-- Embeds `Player.fire_ray(x, y, direction)`:
checks `x < -1 or y < -1` and the direction, builds the `Ray` (whose
`__init__` re-checks the same two conditions), traces it, appends it to
`fired_rays`, and only then runs `update_score(-1)`, which raises
`ValueError` when the new score would be negative. -/
def fireRay (b : Board) (p : Player) (x y : Int) (d : Int × Int) : FireOut :=
  if x < -1 ∨ y < -1 then ⟨.error .valueError, [], p⟩
  else if d ∉ validDirs then ⟨.error .valueError, [], p⟩
  else
    let r := trace b (mkRay x y d)
    match r.outcome with
    | .cycleError => ⟨.error .loopException, [.traceCalled], p⟩
    | .boundsError => ⟨.error .valueError, [.traceCalled], p⟩
    | .outOfFuel => ⟨.error .nonTermination, [.traceCalled], p⟩
    | _ =>
      let p1 : Player := { p with firedRays := p.firedRays ++ [r.state] }
      if p1.score + (-1) < 0 then
        ⟨.error .valueError, [.traceCalled, .rayAppended], p1⟩
      else
        let p2 : Player := { p1 with score := p1.score + (-1) }
        ⟨.ok (p2, r.state), [.traceCalled, .rayAppended, .scoreDeducted], p2⟩

/-- A sequence of `fire_ray` calls; `some` exactly when every call
returned normally. -/
def fireMany (b : Board) (p : Player) :
    List (Int × Int × (Int × Int)) → Option Player
  | [] => some p
  | (x, y, d) :: rest =>
    match (fireRay b p x y d).result with
    | .ok (p1, _) => fireMany b p1 rest
    | .error _ => none

/-- Embeds `GameBoard._place_atoms`, with the random draws supplied by a stream
`rand : Nat → Int × Int` (the pair drawn by the two `random.randint(1,
size - 2)` calls of iteration `k`) and the unbounded `while` loop run on
fuel.  The `self.grid[y][x] is None` test is occupancy of the position
among the atoms placed so far (the grid starts empty and is written
exactly when an atom is appended). -/
def placeAtomsAux (rand : Nat → Int × Int) (numAtoms : Nat) :
    Nat → Nat → List Atom → List Atom
  | 0, _, acc => acc
  | fuel + 1, k, acc =>
    if acc.length < numAtoms then
      if acc.any (fun a => a.x = (rand k).1 ∧ a.y = (rand k).2) then
        placeAtomsAux rand numAtoms fuel (k + 1) acc
      else
        placeAtomsAux rand numAtoms fuel (k + 1) (acc ++ [⟨(rand k).1, (rand k).2⟩])
    else acc

def placeAtoms (rand : Nat → Int × Int) (numAtoms fuel : Nat) : List Atom :=
  placeAtomsAux rand numAtoms fuel 0 []

/-- Embeds `GameScreen.is_valid_ray_start` combined with the coordinate range of
`GameBoard._validate_coordinates`: a non-corner boundary cell. -/
def isBoundaryEntry (size : Nat) (p : Int × Int) : Bool :=
  (-1 ≤ p.1 ∧ p.1 ≤ (size : Int) ∧ -1 ≤ p.2 ∧ p.2 ≤ (size : Int)) ∧
  (p.1 = -1 ∨ p.1 = (size : Int) ∨ p.2 = -1 ∨ p.2 = (size : Int)) ∧
  ¬ ((p.1 = -1 ∧ p.2 = -1) ∨ (p.1 = -1 ∧ p.2 = (size : Int)) ∨
     (p.1 = (size : Int) ∧ p.2 = -1) ∨ (p.1 = (size : Int) ∧ p.2 = (size : Int)))

/-- Embeds `GameScreen.get_ray_direction`: the inward direction of a boundary
entry cell. -/
def inwardDir (size : Nat) (p : Int × Int) : Int × Int :=
  if p.1 = -1 then (1, 0)
  else if p.1 = (size : Int) then (-1, 0)
  else if p.2 = -1 then (0, 1)
  else (0, -1)

/-- From the spec: the boundary position directly opposite a boundary
entry (same row for horizontal rays, same column for vertical rays, on
the far side).  Used only to state claim C5. -/
def oppositeBoundary (size : Nat) (p : Int × Int) : Int × Int :=
  if p.1 = -1 then ((size : Int), p.2)
  else if p.1 = (size : Int) then (-1, p.2)
  else if p.2 = -1 then (p.1, (size : Int))
  else (p.1, -1)

/-! ## Basic facts about single loop passes -/

theorem traceAux_succ (b : Board) (fuel : Nat) (s : RayState) :
    traceAux b (fuel + 1) s =
      match traceStep b s with
      | .done r => r
      | .cont s1 => traceAux b fuel s1 := rfl

theorem trace_fuel_pos (b : Board) :
    ∃ f, b.size * b.size + 4 = f + 1 := ⟨b.size * b.size + 3, rfl⟩

theorem traceStep_cycle (b : Board) (s : RayState)
    (h : s.nextPos ∈ s.visited) :
    traceStep b s = .done ⟨s, .cycleError⟩ := by
  unfold traceStep
  simp [h]

theorem traceStep_exit (b : Board) (s : RayState)
    (hnv : s.nextPos ∉ s.visited)
    (hvc : b.validCoords s.nextPos.1 s.nextPos.2 = true)
    (he : b.isEdge s.nextPos.1 s.nextPos.2 = true) :
    traceStep b s =
      .done ⟨{ s with rpath := s.nextPos :: s.rpath,
                      visited := s.nextPos :: s.visited,
                      exitPoint := .pos s.nextPos }, .exited⟩ := by
  unfold traceStep
  simp [hnv, hvc, he]

theorem traceStep_cont_noAtoms (b : Board) (s : RayState)
    (hatoms : b.atoms = [])
    (hnv : s.nextPos ∉ s.visited)
    (hvc : b.validCoords s.nextPos.1 s.nextPos.2 = true)
    (he : b.isEdge s.nextPos.1 s.nextPos.2 = false) :
    traceStep b s =
      .cont { s with rpath := s.nextPos :: s.rpath,
                     visited := s.nextPos :: s.visited } := by
  unfold traceStep
  simp [hnv, hvc, he, hatoms, findHit, buildReflections]

theorem findHit_ok (atoms : List Atom) (x y : Int)
    (hx : 0 ≤ x) (hy : 0 ≤ y) :
    ∃ bl, findHit atoms x y = .ok bl := by
  induction atoms with
  | nil => exact ⟨false, rfl⟩
  | cons a rest ih =>
    obtain ⟨bl, hbl⟩ := ih
    by_cases hh : (a.x = x ∧ a.y = y : Bool) = true
    · refine ⟨true, ?_⟩
      unfold findHit Atom.isHit
      simp [show ¬(x < 0 ∨ y < 0) by omega, hh]
    · rw [Bool.not_eq_true] at hh
      refine ⟨bl, ?_⟩
      unfold findHit Atom.isHit
      simp [show ¬(x < 0 ∨ y < 0) by omega, hh, hbl]

theorem checkReflectionUnpack_typeError (a : Atom) (x y : Int)
    (hx : 0 ≤ x) (hy : 0 ≤ y) :
    checkReflectionUnpack a x y = .error .typeError := by
  unfold checkReflectionUnpack Atom.isAdjacent
  simp [show ¬(x < 0 ∨ y < 0) by omega]

theorem buildReflections_cons_typeError (a : Atom) (rest : List Atom)
    (x y : Int) (hx : 0 ≤ x) (hy : 0 ≤ y) :
    buildReflections (a :: rest) x y = .error .typeError := by
  unfold buildReflections
  rw [checkReflectionUnpack_typeError a x y hx hy]

/-- On a board with at least one atom, a loop pass that lands on an
interior cell always returns from `trace`: either the cell is a hit, or
the tuple unpacking of `check_reflection` raises the `TypeError` that the
`except` clause swallows. -/
theorem traceStep_atoms_stops (b : Board) (s : RayState)
    (hatoms : b.atoms ≠ [])
    (hnv : s.nextPos ∉ s.visited)
    (hvc : b.validCoords s.nextPos.1 s.nextPos.2 = true)
    (he : b.isEdge s.nextPos.1 s.nextPos.2 = false)
    (hx : 0 ≤ s.nextPos.1) (hy : 0 ≤ s.nextPos.2) :
    traceStep b s =
        .done ⟨{ s with rpath := s.nextPos :: s.rpath,
                        visited := s.nextPos :: s.visited }, .hitAtom⟩ ∨
    traceStep b s =
        .done ⟨{ s with rpath := s.nextPos :: s.rpath,
                        visited := s.nextPos :: s.visited }, .caughtError⟩ := by
  obtain ⟨a, rest, hcons⟩ := List.exists_cons_of_ne_nil hatoms
  obtain ⟨bl, hbl⟩ := findHit_ok b.atoms s.nextPos.1 s.nextPos.2 hx hy
  cases bl with
  | true =>
    left
    unfold traceStep
    simp [hnv, hvc, he, hbl]
  | false =>
    right
    rw [hcons] at hbl
    unfold traceStep
    simp [hnv, hvc, he, hcons, hbl,
      buildReflections_cons_typeError a rest s.nextPos.1 s.nextPos.2 hx hy]


/-- On a board without atoms the loop walks the straight line
`cur + i · direction` cell by cell until the first edge cell, which it
records as the exit; the direction never changes and every advance
lengthens the path by one. -/
theorem traceAux_straight (b : Board) (hatoms : b.atoms = []) :
    ∀ (m : Nat) (s : RayState), s.direction ≠ (0, 0) →
    (∀ i : Nat, 1 ≤ i → i ≤ m + 1 →
      b.validCoords (s.cur.1 + i * s.direction.1) (s.cur.2 + i * s.direction.2) = true ∧
      (b.isEdge (s.cur.1 + i * s.direction.1) (s.cur.2 + i * s.direction.2) = true ↔ i = m + 1) ∧
      (s.cur.1 + i * s.direction.1, s.cur.2 + i * s.direction.2) ∉ s.visited) →
    ∀ fuel, m + 1 ≤ fuel →
      (traceAux b fuel s).outcome = .exited ∧
      (traceAux b fuel s).state.exitPoint =
        .pos (s.cur.1 + (m + 1) * s.direction.1, s.cur.2 + (m + 1) * s.direction.2) ∧
      (traceAux b fuel s).state.direction = s.direction ∧
      (traceAux b fuel s).state.rpath.length = s.rpath.length + (m + 1) ∧
      (traceAux b fuel s).state.entry = s.entry := by
  intro m
  induction m with
  | zero =>
    intro s hd hcells fuel hfuel
    obtain ⟨f, rfl⟩ : ∃ f, fuel = f + 1 := ⟨fuel - 1, by omega⟩
    have h1 := hcells 1 le_rfl le_rfl
    simp only [Nat.cast_one, one_mul] at h1
    obtain ⟨hvc, hedge, hnv⟩ := h1
    have hnv' : s.nextPos ∉ s.visited := by
      simpa [RayState.nextPos] using hnv
    have hvc' : b.validCoords s.nextPos.1 s.nextPos.2 = true := by
      simpa [RayState.nextPos] using hvc
    have he' : b.isEdge s.nextPos.1 s.nextPos.2 = true := by
      have : b.isEdge (s.cur.1 + s.direction.1) (s.cur.2 + s.direction.2) = true := by
        simp at hedge
        exact hedge
      simpa [RayState.nextPos] using this
    rw [traceAux_succ, traceStep_exit b s hnv' hvc' he']
    refine ⟨rfl, ?_, rfl, by simp, rfl⟩
    simp [RayState.nextPos]
  | succ m ih =>
    intro s hd hcells fuel hfuel
    obtain ⟨f, rfl⟩ : ∃ f, fuel = f + 1 := ⟨fuel - 1, by omega⟩
    have h1 := hcells 1 (by omega) (by omega)
    simp only [Nat.cast_one, one_mul] at h1
    obtain ⟨hvc, hedge, hnv⟩ := h1
    have hnv' : s.nextPos ∉ s.visited := by
      simpa [RayState.nextPos] using hnv
    have hvc' : b.validCoords s.nextPos.1 s.nextPos.2 = true := by
      simpa [RayState.nextPos] using hvc
    have he' : b.isEdge s.nextPos.1 s.nextPos.2 = false := by
      rcases htest : b.isEdge s.nextPos.1 s.nextPos.2 with _ | _
      · rfl
      · exfalso
        have := hedge.mp (by simpa [RayState.nextPos] using htest)
        omega
    rw [traceAux_succ, traceStep_cont_noAtoms b s hatoms hnv' hvc' he']
    set s1 : RayState :=
      { s with rpath := s.nextPos :: s.rpath,
               visited := s.nextPos :: s.visited } with hs1
    have hcur1 : s1.cur = s.nextPos := by simp [hs1, RayState.cur]
    have hdir1 : s1.direction = s.direction := by simp [hs1]
    have hco1 : ∀ i : Nat,
        (s1.cur.1 + i * s1.direction.1, s1.cur.2 + i * s1.direction.2) =
        (s.cur.1 + (i + 1) * s.direction.1, s.cur.2 + (i + 1) * s.direction.2) := by
      intro i
      rw [hcur1, hdir1]
      simp only [RayState.nextPos, Prod.mk.injEq]
      constructor <;> ring
    have hcells1 : ∀ i : Nat, 1 ≤ i → i ≤ m + 1 →
        b.validCoords (s1.cur.1 + i * s1.direction.1) (s1.cur.2 + i * s1.direction.2) = true ∧
        (b.isEdge (s1.cur.1 + i * s1.direction.1) (s1.cur.2 + i * s1.direction.2) = true ↔ i = m + 1) ∧
        (s1.cur.1 + i * s1.direction.1, s1.cur.2 + i * s1.direction.2) ∉ s1.visited := by
      intro i hi1 hi2
      have horig := hcells (i + 1) (by omega) (by omega)
      push_cast at horig
      have hx := congrArg Prod.fst (hco1 i)
      have hy := congrArg Prod.snd (hco1 i)
      simp only at hx hy
      refine ⟨by rw [hx, hy]; exact horig.1, ?_, ?_⟩
      · rw [hx, hy, horig.2.1]
      · rw [hco1 i]
        have hmem : s1.visited = s.nextPos :: s.visited := by simp [hs1]
        rw [hmem, List.mem_cons]
        rintro (heq | hmem2)
        · apply hd
          have hfst := congrArg Prod.fst heq
          have hsnd := congrArg Prod.snd heq
          simp only [RayState.nextPos] at hfst hsnd
          have h1s : (i : Int) * s.direction.1 = 0 := by linear_combination hfst
          have h2s : (i : Int) * s.direction.2 = 0 := by linear_combination hsnd
          have hine : (i : Int) ≠ 0 := by
            have : (1 : Int) ≤ (i : Int) := by exact_mod_cast hi1
            omega
          have hz1 : s.direction.1 = 0 := by
            rcases mul_eq_zero.mp h1s with h | h
            · exact absurd h hine
            · exact h
          have hz2 : s.direction.2 = 0 := by
            rcases mul_eq_zero.mp h2s with h | h
            · exact absurd h hine
            · exact h
          exact Prod.ext hz1 hz2
        · exact horig.2.2 hmem2
    have ihc := ih s1 (by rw [hdir1]; exact hd) hcells1 f (by omega)
    obtain ⟨c1, c2, c3, c4, c5⟩ := ihc
    refine ⟨c1, ?_, by rw [c3, hdir1], ?_, c5⟩
    · rw [c2]
      have h := hco1 (m + 1)
      push_cast at h ⊢
      rw [h]
    · rw [c4]
      have : s1.rpath.length = s.rpath.length + 1 := by simp [hs1]
      omega

theorem interior_nonneg (b : Board) (x y : Int)
    (hvc : b.validCoords x y = true) (he : b.isEdge x y = false) :
    0 ≤ x ∧ 0 ≤ y := by
  simp [Board.validCoords] at hvc
  simp [Board.isEdge] at he
  omega

/-- Geometry of a non-corner boundary entry: the board has positive size,
the inward direction is nonzero, the opposite boundary cell lies
`size + 1` steps along it, and the cells `1 … size` along it are interior
while cell `size + 1` is the first edge cell; none of them is the entry. -/
theorem entry_cells (b : Board) (p : Int × Int)
    (h : isBoundaryEntry b.size p = true) :
    1 ≤ b.size ∧
    inwardDir b.size p ≠ (0, 0) ∧
    oppositeBoundary b.size p =
      (p.1 + ((b.size : Int) + 1) * (inwardDir b.size p).1,
       p.2 + ((b.size : Int) + 1) * (inwardDir b.size p).2) ∧
    ∀ i : Nat, 1 ≤ i → i ≤ b.size + 1 →
      b.validCoords (p.1 + i * (inwardDir b.size p).1)
        (p.2 + i * (inwardDir b.size p).2) = true ∧
      (b.isEdge (p.1 + i * (inwardDir b.size p).1)
        (p.2 + i * (inwardDir b.size p).2) = true ↔ i = b.size + 1) ∧
      (p.1 + i * (inwardDir b.size p).1, p.2 + i * (inwardDir b.size p).2) ≠ p := by
  simp only [isBoundaryEntry, decide_eq_true_eq] at h
  by_cases h1 : p.1 = -1
  · have hdir : inwardDir b.size p = (1, 0) := by simp [inwardDir, h1]
    have hopp : oppositeBoundary b.size p = ((b.size : Int), p.2) := by
      simp [oppositeBoundary, h1]
    refine ⟨by omega, by rw [hdir]; decide, ?_, ?_⟩
    · rw [hdir, hopp]
      simp only [mul_one, mul_zero, add_zero, Prod.mk.injEq]
      constructor <;> first | trivial | (clear hdir hopp; omega)
    · intro i hi1 hi2
      rw [hdir]
      simp only [mul_one, mul_zero, add_zero]
      refine ⟨?_, ?_, ?_⟩
      · simp only [Board.validCoords, decide_eq_true_eq]
        omega
      · simp only [Board.isEdge, decide_eq_true_eq]
        omega
      · intro heq
        have hfst := congrArg Prod.fst heq
        simp only at hfst
        omega
  · by_cases h2 : p.1 = (b.size : Int)
    · have hdir : inwardDir b.size p = (-1, 0) := by simp [inwardDir, h1, h2]
      have hopp : oppositeBoundary b.size p = (-1, p.2) := by
        simp [oppositeBoundary, h1, h2]
      refine ⟨by omega, by rw [hdir]; decide, ?_, ?_⟩
      · rw [hdir, hopp]
        simp only [mul_one, mul_zero, add_zero, mul_neg, Prod.mk.injEq]
        constructor <;> first | trivial | (clear hdir hopp; omega)
      · intro i hi1 hi2
        rw [hdir]
        simp only [mul_one, mul_zero, add_zero, mul_neg]
        refine ⟨?_, ?_, ?_⟩
        · simp only [Board.validCoords, decide_eq_true_eq]
          omega
        · simp only [Board.isEdge, decide_eq_true_eq]
          omega
        · intro heq
          have hfst := congrArg Prod.fst heq
          simp only at hfst
          omega
    · by_cases h3 : p.2 = -1
      · have hdir : inwardDir b.size p = (0, 1) := by simp [inwardDir, h1, h2, h3]
        have hopp : oppositeBoundary b.size p = (p.1, (b.size : Int)) := by
          simp [oppositeBoundary, h1, h2, h3]
        refine ⟨by omega, by rw [hdir]; decide, ?_, ?_⟩
        · rw [hdir, hopp]
          simp only [mul_one, mul_zero, add_zero, Prod.mk.injEq]
          constructor <;> first | trivial | (clear hdir hopp; omega)
        · intro i hi1 hi2
          rw [hdir]
          simp only [mul_one, mul_zero, add_zero]
          refine ⟨?_, ?_, ?_⟩
          · simp only [Board.validCoords, decide_eq_true_eq]
            omega
          · simp only [Board.isEdge, decide_eq_true_eq]
            omega
          · intro heq
            have hsnd := congrArg Prod.snd heq
            simp only at hsnd
            omega
      · have h4 : p.2 = (b.size : Int) := by
          rcases h.2.1 with hs | hs | hs | hs
          · exact absurd hs h1
          · exact absurd hs h2
          · exact absurd hs h3
          · exact hs
        have hdir : inwardDir b.size p = (0, -1) := by simp [inwardDir, h1, h2, h3]
        have hopp : oppositeBoundary b.size p = (p.1, -1) := by
          simp [oppositeBoundary, h1, h2, h3]
        refine ⟨by omega, by rw [hdir]; decide, ?_, ?_⟩
        · rw [hdir, hopp]
          simp only [mul_one, mul_zero, add_zero, mul_neg, Prod.mk.injEq]
          constructor <;> first | trivial | (clear hdir hopp; omega)
        · intro i hi1 hi2
          rw [hdir]
          simp only [mul_one, mul_zero, add_zero, mul_neg]
          refine ⟨?_, ?_, ?_⟩
          · simp only [Board.validCoords, decide_eq_true_eq]
            omega
          · simp only [Board.isEdge, decide_eq_true_eq]
            omega
          · intro heq
            have hsnd := congrArg Prod.snd heq
            simp only at hsnd
            omega

/-- C5: on a board with zero particles, every ray fired from a non-corner
boundary entry cell with the inward direction exits at the boundary
position directly opposite its entry, with its direction unchanged, and
the exit position recorded as the terminal outcome. -/
theorem empty_board_pass_through (b : Board) (p : Int × Int)
    (hatoms : b.atoms = [])
    (hentry : isBoundaryEntry b.size p = true) :
    (trace b (mkRay p.1 p.2 (inwardDir b.size p))).outcome = .exited ∧
    (trace b (mkRay p.1 p.2 (inwardDir b.size p))).state.exitPoint =
      .pos (oppositeBoundary b.size p) ∧
    (trace b (mkRay p.1 p.2 (inwardDir b.size p))).state.direction =
      inwardDir b.size p := by
  obtain ⟨hsz, hd, hopp, hcells⟩ := entry_cells b p hentry
  set s : RayState := mkRay p.1 p.2 (inwardDir b.size p) with hs
  have hcur : s.cur = p := by simp [hs, mkRay, RayState.cur]
  have hdir : s.direction = inwardDir b.size p := rfl
  have hvis : s.visited = [p] := by simp [hs, mkRay]
  have hcells' : ∀ i : Nat, 1 ≤ i → i ≤ b.size + 1 →
      b.validCoords (s.cur.1 + i * s.direction.1) (s.cur.2 + i * s.direction.2) = true ∧
      (b.isEdge (s.cur.1 + i * s.direction.1) (s.cur.2 + i * s.direction.2) = true ↔
        i = b.size + 1) ∧
      (s.cur.1 + i * s.direction.1, s.cur.2 + i * s.direction.2) ∉ s.visited := by
    intro i hi1 hi2
    rw [hcur, hdir, hvis]
    obtain ⟨hv, he, hne⟩ := hcells i hi1 hi2
    exact ⟨hv, he, by simpa using hne⟩
  have hfuel : b.size + 1 ≤ b.size * b.size + 4 := by
    have := Nat.le_mul_of_pos_left b.size (show 0 < b.size by omega)
    omega
  have hmain := traceAux_straight b hatoms b.size s
    (by rw [hdir]; exact hd) hcells' (b.size * b.size + 4) hfuel
  obtain ⟨c1, c2, c3, c4, c5⟩ := hmain
  have htr : trace b s = traceAux b (b.size * b.size + 4) s := rfl
  refine ⟨by rw [htr]; exact c1, ?_, by rw [htr, c3, hdir]⟩
  rw [htr, c2, hopp, hcur, hdir]

/-- C8: for every board and every non-corner boundary entry with the
inward direction — whatever the particle set — the simulator reaches a
terminal outcome (never the fuel cap) and the traced path makes at most
`2 × size` advances. -/
theorem ray_terminates_within_bound (b : Board) (p : Int × Int)
    (hentry : isBoundaryEntry b.size p = true) :
    (trace b (mkRay p.1 p.2 (inwardDir b.size p))).state.rpath.length - 1
        ≤ 2 * b.size ∧
    (trace b (mkRay p.1 p.2 (inwardDir b.size p))).outcome ≠ .outOfFuel := by
  obtain ⟨hsz, hd, hopp, hcells⟩ := entry_cells b p hentry
  set s : RayState := mkRay p.1 p.2 (inwardDir b.size p) with hs
  have hcur : s.cur = p := by simp [hs, mkRay, RayState.cur]
  have hdir : s.direction = inwardDir b.size p := rfl
  have hvis : s.visited = [p] := by simp [hs, mkRay]
  have hlen : s.rpath.length = 1 := by simp [hs, mkRay]
  have h1 := hcells 1 le_rfl (by omega)
  simp only [Nat.cast_one, one_mul] at h1
  obtain ⟨hvc1, hedge1, hne1⟩ := h1
  have hnxt : s.nextPos = (p.1 + (inwardDir b.size p).1, p.2 + (inwardDir b.size p).2) := by
    rw [RayState.nextPos, hcur, hdir]
  have hnv : s.nextPos ∉ s.visited := by
    rw [hnxt, hvis]
    simpa using hne1
  have hvc : b.validCoords s.nextPos.1 s.nextPos.2 = true := by rw [hnxt]; exact hvc1
  have hne : b.isEdge s.nextPos.1 s.nextPos.2 = false := by
    rcases htest : b.isEdge s.nextPos.1 s.nextPos.2 with _ | _
    · rfl
    · exfalso
      rw [hnxt] at htest
      have := hedge1.mp htest
      omega
  cases hatoms : b.atoms with
  | nil =>
    have hstraight := traceAux_straight b hatoms b.size s
      (by rw [hdir]; exact hd)
      (by
        intro i hi1 hi2
        rw [hcur, hdir, hvis]
        obtain ⟨hv, he, hneq⟩ := hcells i hi1 hi2
        exact ⟨hv, he, by simpa using hneq⟩)
      (b.size * b.size + 4)
      (by
        have := Nat.le_mul_of_pos_left b.size (show 0 < b.size by omega)
        omega)
    obtain ⟨c1, c2, c3, c4, c5⟩ := hstraight
    have htr : trace b s = traceAux b (b.size * b.size + 4) s := rfl
    constructor
    · rw [htr, c4, hlen]
      omega
    · rw [htr, c1]
      intro hcontra
      cases hcontra
  | cons a rest =>
    have hcoords := interior_nonneg b s.nextPos.1 s.nextPos.2 hvc hne
    have hstop := traceStep_atoms_stops b s (by rw [hatoms]; intro hc; cases hc)
      hnv hvc hne hcoords.1 hcoords.2
    obtain ⟨f, hf⟩ := trace_fuel_pos b
    have htr : trace b s = traceAux b (f + 1) s := by rw [trace, hf]
    rcases hstop with hstop | hstop
    · rw [htr, traceAux_succ, hstop]
      constructor
      · simp [hlen]
        omega
      · intro hcontra
        cases hcontra
    · rw [htr, traceAux_succ, hstop]
      constructor
      · simp [hlen]
        omega
      · intro hcontra
        cases hcontra

/-- C4: whenever the ray would advance onto a position it has already
visited, `Ray.trace` stops at once with the loop-guard error (the
`Exception` that `SimulationCycle` names), leaving the state untouched,
instead of looping forever. -/
theorem cycle_guard_stops (b : Board) (s : RayState)
    (h : s.nextPos ∈ s.visited) :
    trace b s = ⟨s, .cycleError⟩ := by
  obtain ⟨f, hf⟩ := trace_fuel_pos b
  rw [trace, hf, traceAux_succ, traceStep_cycle b s h]

/-- Soundness of the fuelled interpreter for the loop-graph relation:
a run that ends before the fuel cap is a `TraceRun`. -/
theorem traceAux_toRun (b : Board) :
    ∀ (fuel : Nat) (s : RayState) (r : TraceResult),
      traceAux b fuel s = r → r.outcome ≠ .outOfFuel → TraceRun b s r := by
  intro fuel
  induction fuel with
  | zero =>
    intro s r h hne
    rw [traceAux] at h
    rw [← h] at hne
    exact absurd rfl hne
  | succ f ih =>
    intro s r h hne
    rw [traceAux_succ] at h
    rcases hstep : traceStep b s with r0 | s1
    · rw [hstep] at h
      exact h ▸ TraceRun.done hstep
    · rw [hstep] at h
      exact TraceRun.cont hstep (ih s1 r h hne)

/-- C9: the ray simulation is deterministic — for a fixed board and
starting state, any two runs of the trace loop end in the same result
(same path, same terminal outcome, same exit position). -/
theorem trace_deterministic (b : Board) (s : RayState) (r1 r2 : TraceResult)
    (h1 : TraceRun b s r1) (h2 : TraceRun b s r2) : r1 = r2 := by
  induction h1 with
  | done hstep =>
    cases h2 with
    | done hstep2 =>
      rw [hstep] at hstep2
      injection hstep2
    | cont hstep2 htail2 =>
      rw [hstep] at hstep2
      cases hstep2
  | cont hstep htail ih =>
    cases h2 with
    | done hstep2 =>
      rw [hstep] at hstep2
      cases hstep2
    | cont hstep2 htail2 =>
      rw [hstep] at hstep2
      injection hstep2 with hseq
      exact ih (hseq ▸ htail2)

/-- Shape analysis of `Player.fire_ray`: either a validation `ValueError`
with no side effect, or an error propagating out of `trace` after it was
invoked, or the `update_score` failure after the ray was already
appended, or normal completion with the deduction last. -/
theorem fireRay_shape (b : Board) (p : Player) (x y : Int) (d : Int × Int) :
    (∃ e, fireRay b p x y d = ⟨.error e, [], p⟩) ∨
    (∃ e, fireRay b p x y d = ⟨.error e, [.traceCalled], p⟩) ∨
    (fireRay b p x y d =
       ⟨.error .valueError, [.traceCalled, .rayAppended],
        { p with firedRays := p.firedRays ++ [(trace b (mkRay x y d)).state] }⟩) ∨
    (fireRay b p x y d =
       ⟨.ok ({ score := p.score + (-1),
               firedRays := p.firedRays ++ [(trace b (mkRay x y d)).state] },
             (trace b (mkRay x y d)).state),
        [.traceCalled, .rayAppended, .scoreDeducted],
        { score := p.score + (-1),
          firedRays := p.firedRays ++ [(trace b (mkRay x y d)).state] }⟩) := by
  unfold fireRay
  split
  · exact Or.inl ⟨_, rfl⟩
  · split
    · exact Or.inl ⟨_, rfl⟩
    · dsimp only
      split
      · exact Or.inr (Or.inl ⟨_, rfl⟩)
      · exact Or.inr (Or.inl ⟨_, rfl⟩)
      · exact Or.inr (Or.inl ⟨_, rfl⟩)
      · split
        · exact Or.inr (Or.inr (Or.inl rfl))
        · exact Or.inr (Or.inr (Or.inr rfl))

/-- A `fire_ray` call that returns normally: the returned player has the
traced ray appended and exactly one point deducted, and the side effects
ran in source order — trace, append, deduct. -/
theorem fireRay_ok (b : Board) (p : Player) (x y : Int) (d : Int × Int)
    (q : Player) (ray : RayState)
    (h : (fireRay b p x y d).result = .ok (q, ray)) :
    q.score = p.score - 1 ∧
    q.firedRays = p.firedRays ++ [ray] ∧
    (fireRay b p x y d).events = [.traceCalled, .rayAppended, .scoreDeducted] := by
  rcases fireRay_shape b p x y d with ⟨e, he⟩ | ⟨e, he⟩ | he | he
  · rw [he] at h
    cases h
  · rw [he] at h
    cases h
  · rw [he] at h
    cases h
  · rw [he] at h
    injection h with h2
    injection h2 with hq hray
    rw [he, ← hq, ← hray]
    refine ⟨?_, rfl, rfl⟩
    show p.score + -1 = p.score - 1
    ring

/-- Once the two validation checks pass, every execution path of
`fire_ray` invokes the simulator, so the event log is never empty. -/
theorem fireRay_valid_events (b : Board) (p : Player) (x y : Int)
    (d : Int × Int) (hA : ¬(x < -1 ∨ y < -1)) (hB : ¬(d ∉ validDirs)) :
    (fireRay b p x y d).events ≠ [] := by
  unfold fireRay
  rw [if_neg hA, if_neg hB]
  dsimp only
  split
  · simp
  · simp
  · simp
  · split
    · simp
    · simp

/-- C3 (amended): a sequence of `N` successful `fire_ray` calls leaves the
score at `S − N` and appends the `N` traced rays to the history; within
each call the fixed 1-point deduction runs after the simulator returns
and after the ray is appended, as the event order shows. -/
theorem fire_ray_score_after_trace :
    (∀ (b : Board) (args : List (Int × Int × (Int × Int))) (p p1 : Player),
      fireMany b p args = some p1 →
        p1.score = p.score - args.length ∧
        ∃ extra : List RayState,
          p1.firedRays = p.firedRays ++ extra ∧ extra.length = args.length) ∧
    (∀ (b : Board) (p : Player) (x y : Int) (d : Int × Int)
        (q : Player) (ray : RayState),
      (fireRay b p x y d).result = .ok (q, ray) →
      (fireRay b p x y d).events = [.traceCalled, .rayAppended, .scoreDeducted]) := by
  constructor
  · intro b args
    induction args with
    | nil =>
      intro p p1 h
      simp only [fireMany] at h
      injection h with h
      subst h
      exact ⟨by simp, [], by simp, rfl⟩
    | cons a rest ih =>
      obtain ⟨ax, ay, ad⟩ := a
      intro p p1 h
      simp only [fireMany] at h
      rcases hres : (fireRay b p ax ay ad).result with e | v
      · rw [hres] at h
        cases h
      · obtain ⟨q, ray⟩ := v
        rw [hres] at h
        obtain ⟨hsc, extra, hfr, hlen⟩ := ih q p1 h
        obtain ⟨hq1, hq2, _⟩ := fireRay_ok b p ax ay ad q ray hres
        refine ⟨by rw [hsc, hq1]; simp only [List.length_cons]; push_cast; ring,
          ray :: extra, ?_, by simp [hlen]⟩
        rw [hfr, hq2]
        simp
  · intro b p x y d q ray h
    exact (fireRay_ok b p x y d q ray h).2.2

/-- C7 (amended): `fire_ray` checks neither boundary membership nor
inwardness of the entry.  It rejects *before invoking the simulator* —
its event log stays empty and the player is untouched — exactly when
`x < -1`, `y < -1`, or the direction is not one of the four unit vectors.
A `ValueError` failure is not confined to that rejection: after the
simulator was invoked the call can still fail, e.g. through the board's
coordinate validation when the traced ray leaves `[-1, size]²`, as the
second part shows on entry `(100, 2)` — there with no state change
either, since the ray is appended only after `trace` returns. -/
theorem fire_ray_validation_characterization :
    (∀ (b : Board) (p : Player) (x y : Int) (d : Int × Int),
      (((fireRay b p x y d).result.isOk = false ∧
          (fireRay b p x y d).events = []) ↔
        (x < -1 ∨ y < -1 ∨ d ∉ validDirs)) ∧
      ((x < -1 ∨ y < -1 ∨ d ∉ validDirs) →
        (fireRay b p x y d).playerAfter = p)) ∧
    (∀ p : Player,
      (fireRay ⟨8, []⟩ p 100 2 (1, 0)).result.isOk = false ∧
      (fireRay ⟨8, []⟩ p 100 2 (1, 0)).events = [.traceCalled] ∧
      (fireRay ⟨8, []⟩ p 100 2 (1, 0)).playerAfter = p ∧
      ¬((100 : Int) < -1 ∨ (2 : Int) < -1 ∨
        ((1, 0) : Int × Int) ∉ validDirs)) := by
  constructor
  · intro b p x y d
    by_cases hA : x < -1 ∨ y < -1
    · have hfr : fireRay b p x y d = ⟨.error .valueError, [], p⟩ := by
        unfold fireRay
        rw [if_pos hA]
      rw [hfr]
      exact ⟨by simp; tauto, fun _ => rfl⟩
    · by_cases hB : d ∉ validDirs
      · have hfr : fireRay b p x y d = ⟨.error .valueError, [], p⟩ := by
          unfold fireRay
          rw [if_neg hA, if_pos hB]
        rw [hfr]
        exact ⟨by simp; tauto, fun _ => rfl⟩
      · have hcond : ¬(x < -1 ∨ y < -1 ∨ d ∉ validDirs) := by tauto
        constructor
        · constructor
          · rintro ⟨hok, hev⟩
            exact absurd hev (fireRay_valid_events b p x y d hA hB)
          · intro hc
            exact absurd hc hcond
        · intro hc
          exact absurd hc hcond
  · intro p
    exact ⟨rfl, rfl, rfl, by decide⟩

/-- Loop invariant of `_place_atoms`: every draw that passes the
occupancy test keeps all coordinates in `[1, size − 2]` and all placed
positions pairwise distinct. -/
theorem placeAtomsAux_inv (size : Nat) (rand : Nat → Int × Int)
    (numAtoms : Nat)
    (hrand : ∀ k, 1 ≤ (rand k).1 ∧ (rand k).1 ≤ (size : Int) - 2 ∧
                  1 ≤ (rand k).2 ∧ (rand k).2 ≤ (size : Int) - 2) :
    ∀ (fuel k : Nat) (acc : List Atom),
      (∀ a ∈ acc, 1 ≤ a.x ∧ a.x ≤ (size : Int) - 2 ∧
        1 ≤ a.y ∧ a.y ≤ (size : Int) - 2) →
      acc.Pairwise (fun a1 a2 => (a1.x, a1.y) ≠ (a2.x, a2.y)) →
      (∀ a ∈ placeAtomsAux rand numAtoms fuel k acc,
        1 ≤ a.x ∧ a.x ≤ (size : Int) - 2 ∧
        1 ≤ a.y ∧ a.y ≤ (size : Int) - 2) ∧
      (placeAtomsAux rand numAtoms fuel k acc).Pairwise
        (fun a1 a2 => (a1.x, a1.y) ≠ (a2.x, a2.y)) := by
  intro fuel
  induction fuel with
  | zero =>
    intro k acc hacc hpw
    exact ⟨hacc, hpw⟩
  | succ f ih =>
    intro k acc hacc hpw
    rw [placeAtomsAux]
    split
    · split
      · exact ih (k + 1) acc hacc hpw
      · rename_i hlt hany
        apply ih (k + 1)
        · intro a ha
          rcases List.mem_append.mp ha with ha | ha
          · exact hacc a ha
          · have : a = ⟨(rand k).1, (rand k).2⟩ := by simpa using ha
            subst this
            exact hrand k
        · rw [List.pairwise_append]
          refine ⟨hpw, List.pairwise_singleton _ _, ?_⟩
          intro a ha a2 ha2
          have ha2' : a2 = ⟨(rand k).1, (rand k).2⟩ := by simpa using ha2
          subst ha2'
          have hnone : ∀ a ∈ acc, ¬(a.x = (rand k).1 ∧ a.y = (rand k).2) := by
            intro a3 ha3 hc
            apply hany
            rw [List.any_eq_true]
            exact ⟨a3, ha3, by simpa using hc⟩
          intro hc
          apply hnone a ha
          have h1 := congrArg Prod.fst hc
          have h2 := congrArg Prod.snd hc
          simp only at h1 h2
          exact ⟨h1, h2⟩
    · exact ⟨hacc, hpw⟩

/-- C10: after single-player board setup at any difficulty, every placed
atom has both coordinates in `[1, size − 2]` — never on the outermost
interior row or column — and all placed atoms occupy pairwise distinct
positions.  The `random.randint(1, size - 2)` draws are supplied by the
stream `rand`, constrained to `randint`'s guaranteed range. -/
theorem placed_atoms_in_inner_region (d : Difficulty) (rand : Nat → Int × Int)
    (numAtoms fuel : Nat)
    (hrand : ∀ k, 1 ≤ (rand k).1 ∧ (rand k).1 ≤ (sizeOfDifficulty d : Int) - 2 ∧
                  1 ≤ (rand k).2 ∧ (rand k).2 ≤ (sizeOfDifficulty d : Int) - 2) :
    (∀ a ∈ placeAtoms rand numAtoms fuel,
      1 ≤ a.x ∧ a.x ≤ (sizeOfDifficulty d : Int) - 2 ∧
      1 ≤ a.y ∧ a.y ≤ (sizeOfDifficulty d : Int) - 2) ∧
    (placeAtoms rand numAtoms fuel).Pairwise
      (fun a1 a2 => (a1.x, a1.y) ≠ (a2.x, a2.y)) := by
  have h := placeAtomsAux_inv (sizeOfDifficulty d) rand numAtoms hrand fuel 0 []
    (by intro a ha; cases ha) List.Pairwise.nil
  exact h

/-- C1: with two particles straddling the ray's row — the spec's double
deflection — the code never reaches its double-deflection handler: the
tuple unpacking of `check_reflection` raises a `TypeError` at the first
interior cell, the `except` clause swallows it and the trace ends with
direction unchanged and no exit recorded; and the handler itself, if it
ran, would set `exit_point = True` and `is_double_detour = None` without
reversing the direction, not reflect the ray back to its entry. -/
theorem double_deflection_divergence :
    Atom.isAdjacent ⟨2, 1⟩ 1 2 = .ok true ∧
    Atom.isAdjacent ⟨2, 3⟩ 1 2 = .ok true ∧
    trace ⟨8, [⟨2, 1⟩, ⟨2, 3⟩]⟩ (mkRay (-1) 2 (1, 0)) =
      ⟨⟨(1, 0), [(0, 2), (-1, 2)], [(0, 2), (-1, 2)], (-1, 2),
        .noneV, false, .ff⟩, .caughtError⟩ ∧
    (handleMultipleReflections
      ⟨(1, 0), [(1, 2), (0, 2), (-1, 2)], [(1, 2), (0, 2), (-1, 2)], (-1, 2),
       .noneV, false, .ff⟩).exitPoint = .trueVal ∧
    (handleMultipleReflections
      ⟨(1, 0), [(1, 2), (0, 2), (-1, 2)], [(1, 2), (0, 2), (-1, 2)], (-1, 2),
       .noneV, false, .ff⟩).direction = (1, 0) ∧
    (handleMultipleReflections
      ⟨(1, 0), [(1, 2), (0, 2), (-1, 2)], [(1, 2), (0, 2), (-1, 2)], (-1, 2),
       .noneV, false, .ff⟩).isDoubleDetour = .noneV := by
  decide

/-- C2: the deflection table of `_handle_reflection` does cover exactly
two incoming directions per corner, but the dispatcher never reaches it:
with a single diagonally adjacent particle the tuple unpacking of
`check_reflection` raises a `TypeError`, the `except` clause swallows it,
and the trace ends at the first interior cell with the direction never
changed. -/
theorem single_deflection_divergence :
    Atom.isAdjacent ⟨1, 1⟩ 0 2 = .ok true ∧
    checkReflectionUnpack ⟨1, 1⟩ 0 2 = .error .typeError ∧
    trace ⟨8, [⟨1, 1⟩]⟩ (mkRay (-1) 2 (1, 0)) =
      ⟨⟨(1, 0), [(0, 2), (-1, 2)], [(0, 2), (-1, 2)], (-1, 2),
        .noneV, false, .ff⟩, .caughtError⟩ ∧
    (validDirs.filter fun dd => (reflectionRules 1 dd).isSome).length = 2 ∧
    (validDirs.filter fun dd => (reflectionRules 2 dd).isSome).length = 2 ∧
    (validDirs.filter fun dd => (reflectionRules 3 dd).isSome).length = 2 ∧
    (validDirs.filter fun dd => (reflectionRules 4 dd).isSome).length = 2 := by
  decide

/-- C6: a ray aimed along a particle's row does not reach the particle —
the reflection-unpacking `TypeError` ends the trace at the first interior
cell — although the hit branch itself does fire when the particle sits on
the very first cell after the entry. -/
theorem hit_exactness_divergence :
    trace ⟨8, [⟨5, 2⟩]⟩ (mkRay (-1) 2 (1, 0)) =
      ⟨⟨(1, 0), [(0, 2), (-1, 2)], [(0, 2), (-1, 2)], (-1, 2),
        .noneV, false, .ff⟩, .caughtError⟩ ∧
    trace ⟨8, [⟨0, 2⟩]⟩ (mkRay (-1) 2 (1, 0)) =
      ⟨⟨(1, 0), [(0, 2), (-1, 2)], [(0, 2), (-1, 2)], (-1, 2),
        .noneV, false, .ff⟩, .hitAtom⟩ := by
  decide

/-- C3 counterexample: a successful `fire_ray` call logs the simulator
invocation first and the score deduction last — the deduction is not
applied before the simulator is invoked. -/
theorem score_deduction_order_cex :
    (fireRay ⟨8, []⟩ ⟨25, []⟩ (-1) 2 (1, 0)).result.isOk = true ∧
    (fireRay ⟨8, []⟩ ⟨25, []⟩ (-1) 2 (1, 0)).events =
      [.traceCalled, .rayAppended, .scoreDeducted] ∧
    ¬ ((fireRay ⟨8, []⟩ ⟨25, []⟩ (-1) 2 (1, 0)).events.indexOf Ev.scoreDeducted <
        (fireRay ⟨8, []⟩ ⟨25, []⟩ (-1) 2 (1, 0)).events.indexOf Ev.traceCalled) := by
  decide

theorem fire_ray_score_after_trace_witness :
    (Player.mk 24 [⟨(1, 0),
        [(8, 2), (7, 2), (6, 2), (5, 2), (4, 2), (3, 2), (2, 2), (1, 2), (0, 2), (-1, 2)],
        [(8, 2), (7, 2), (6, 2), (5, 2), (4, 2), (3, 2), (2, 2), (1, 2), (0, 2), (-1, 2)],
        (-1, 2), .pos (8, 2), false, .ff⟩]).score =
      (Player.mk 25 []).score -
        ([((-1 : Int), (2 : Int), ((1 : Int), (0 : Int)))]).length ∧
    (fireRay ⟨8, []⟩ ⟨25, []⟩ (-1) 2 (1, 0)).events =
      [.traceCalled, .rayAppended, .scoreDeducted] :=
  ⟨(fire_ray_score_after_trace.1 ⟨8, []⟩
      [((-1 : Int), (2 : Int), ((1 : Int), (0 : Int)))] (Player.mk 25 []) _
      (by decide)).1,
   fire_ray_score_after_trace.2 ⟨8, []⟩ ⟨25, []⟩ (-1) 2 (1, 0)
     (Player.mk 24 [⟨(1, 0),
        [(8, 2), (7, 2), (6, 2), (5, 2), (4, 2), (3, 2), (2, 2), (1, 2), (0, 2), (-1, 2)],
        [(8, 2), (7, 2), (6, 2), (5, 2), (4, 2), (3, 2), (2, 2), (1, 2), (0, 2), (-1, 2)],
        (-1, 2), .pos (8, 2), false, .ff⟩])
     ⟨(1, 0),
        [(8, 2), (7, 2), (6, 2), (5, 2), (4, 2), (3, 2), (2, 2), (1, 2), (0, 2), (-1, 2)],
        [(8, 2), (7, 2), (6, 2), (5, 2), (4, 2), (3, 2), (2, 2), (1, 2), (0, 2), (-1, 2)],
        (-1, 2), .pos (8, 2), false, .ff⟩
     (by decide)⟩

/-- C7 counterexample: `fire_ray` accepts an interior entry cell, a corner
entry cell, and a boundary entry with a non-inward direction — none of
them is rejected. -/
theorem fire_ray_accepts_non_boundary_cex :
    (fireRay ⟨8, []⟩ ⟨25, []⟩ 3 3 (1, 0)).result.isOk = true ∧
    isBoundaryEntry 8 (3, 3) = false ∧
    (fireRay ⟨8, []⟩ ⟨25, []⟩ (-1) (-1) (0, 1)).result.isOk = true ∧
    isBoundaryEntry 8 (-1, -1) = false ∧
    (fireRay ⟨8, []⟩ ⟨25, []⟩ (-1) 2 (0, 1)).result.isOk = true ∧
    (0, 1) ≠ inwardDir 8 (-1, 2) := by
  decide

theorem fire_ray_validation_characterization_witness :
    ((fireRay ⟨8, []⟩ ⟨25, []⟩ (-2) 2 (1, 0)).result.isOk = false ∧
      (fireRay ⟨8, []⟩ ⟨25, []⟩ (-2) 2 (1, 0)).events = []) ∧
    (fireRay ⟨8, []⟩ ⟨25, []⟩ (-2) 2 (1, 0)).playerAfter = ⟨25, []⟩ ∧
    (fireRay ⟨8, []⟩ ⟨25, []⟩ 100 2 (1, 0)).result.isOk = false ∧
    (fireRay ⟨8, []⟩ ⟨25, []⟩ 100 2 (1, 0)).events = [.traceCalled] ∧
    (fireRay ⟨8, []⟩ ⟨25, []⟩ 100 2 (1, 0)).playerAfter = ⟨25, []⟩ :=
  ⟨(fire_ray_validation_characterization.1 ⟨8, []⟩ ⟨25, []⟩ (-2) 2 (1, 0)).1.mpr
     (by decide),
   (fire_ray_validation_characterization.1 ⟨8, []⟩ ⟨25, []⟩ (-2) 2 (1, 0)).2
     (by decide),
   (fire_ray_validation_characterization.2 ⟨25, []⟩).1,
   (fire_ray_validation_characterization.2 ⟨25, []⟩).2.1,
   (fire_ray_validation_characterization.2 ⟨25, []⟩).2.2.1⟩

theorem cycle_guard_stops_witness :
    RayState.nextPos ⟨(-1, 0),
        [(8, 2), (7, 2), (6, 2), (5, 2), (4, 2), (3, 2), (2, 2), (1, 2), (0, 2), (-1, 2)],
        [(8, 2), (7, 2), (6, 2), (5, 2), (4, 2), (3, 2), (2, 2), (1, 2), (0, 2), (-1, 2)],
        (-1, 2), .pos (8, 2), false, .ff⟩ ∈
      ([(8, 2), (7, 2), (6, 2), (5, 2), (4, 2), (3, 2), (2, 2), (1, 2), (0, 2), (-1, 2)] :
        List (Int × Int)) ∧
    trace ⟨8, []⟩ ⟨(-1, 0),
        [(8, 2), (7, 2), (6, 2), (5, 2), (4, 2), (3, 2), (2, 2), (1, 2), (0, 2), (-1, 2)],
        [(8, 2), (7, 2), (6, 2), (5, 2), (4, 2), (3, 2), (2, 2), (1, 2), (0, 2), (-1, 2)],
        (-1, 2), .pos (8, 2), false, .ff⟩ =
      ⟨⟨(-1, 0),
        [(8, 2), (7, 2), (6, 2), (5, 2), (4, 2), (3, 2), (2, 2), (1, 2), (0, 2), (-1, 2)],
        [(8, 2), (7, 2), (6, 2), (5, 2), (4, 2), (3, 2), (2, 2), (1, 2), (0, 2), (-1, 2)],
        (-1, 2), .pos (8, 2), false, .ff⟩, .cycleError⟩ :=
  ⟨by decide, cycle_guard_stops ⟨8, []⟩ _ (by decide)⟩

theorem empty_board_pass_through_witness :
    Board.atoms ⟨8, []⟩ = [] ∧
    isBoundaryEntry (Board.size ⟨8, []⟩) (-1, 2) = true ∧
    (trace ⟨8, []⟩ (mkRay (-1, 2).1 (-1, 2).2
        (inwardDir (Board.size ⟨8, []⟩) (-1, 2)))).outcome = .exited ∧
    (trace ⟨8, []⟩ (mkRay (-1, 2).1 (-1, 2).2
        (inwardDir (Board.size ⟨8, []⟩) (-1, 2)))).state.exitPoint =
      .pos (oppositeBoundary (Board.size ⟨8, []⟩) (-1, 2)) ∧
    (trace ⟨8, []⟩ (mkRay (-1, 2).1 (-1, 2).2
        (inwardDir (Board.size ⟨8, []⟩) (-1, 2)))).state.direction =
      inwardDir (Board.size ⟨8, []⟩) (-1, 2) := by
  have h := empty_board_pass_through ⟨8, []⟩ (-1, 2) rfl (by decide)
  exact ⟨rfl, by decide, h.1, h.2.1, h.2.2⟩

theorem ray_terminates_within_bound_witness :
    isBoundaryEntry (Board.size ⟨8, [⟨3, 3⟩]⟩) (-1, 2) = true ∧
    (trace ⟨8, [⟨3, 3⟩]⟩ (mkRay (-1, 2).1 (-1, 2).2
        (inwardDir (Board.size ⟨8, [⟨3, 3⟩]⟩) (-1, 2)))).state.rpath.length - 1 ≤
      2 * Board.size ⟨8, [⟨3, 3⟩]⟩ ∧
    (trace ⟨8, [⟨3, 3⟩]⟩ (mkRay (-1, 2).1 (-1, 2).2
        (inwardDir (Board.size ⟨8, [⟨3, 3⟩]⟩) (-1, 2)))).outcome ≠ .outOfFuel := by
  have h := ray_terminates_within_bound ⟨8, [⟨3, 3⟩]⟩ (-1, 2) (by decide)
  exact ⟨by decide, h.1, h.2⟩

theorem trace_deterministic_witness :
    TraceRun ⟨8, []⟩ (mkRay (-1) 2 (1, 0)) (trace ⟨8, []⟩ (mkRay (-1) 2 (1, 0))) ∧
    trace ⟨8, []⟩ (mkRay (-1) 2 (1, 0)) = trace ⟨8, []⟩ (mkRay (-1) 2 (1, 0)) := by
  have h : TraceRun ⟨8, []⟩ (mkRay (-1) 2 (1, 0))
      (trace ⟨8, []⟩ (mkRay (-1) 2 (1, 0))) :=
    traceAux_toRun ⟨8, []⟩ (8 * 8 + 4) (mkRay (-1) 2 (1, 0)) _ rfl (by decide)
  exact ⟨h, trace_deterministic ⟨8, []⟩ (mkRay (-1) 2 (1, 0)) _ _ h h⟩

theorem placed_atoms_in_inner_region_witness :
    (∀ a ∈ placeAtoms (fun _ => (1, 1)) 4 10,
      1 ≤ a.x ∧ a.x ≤ (sizeOfDifficulty .medium : Int) - 2 ∧
      1 ≤ a.y ∧ a.y ≤ (sizeOfDifficulty .medium : Int) - 2) ∧
    (placeAtoms (fun _ => (1, 1)) 4 10).Pairwise
      (fun a1 a2 => (a1.x, a1.y) ≠ (a2.x, a2.y)) :=
  placed_atoms_in_inner_region .medium (fun _ => (1, 1)) 4 10
    (fun _ => by refine ⟨?_, ?_, ?_, ?_⟩ <;> norm_num [sizeOfDifficulty])
